import Mathlib

/-!
Verification of the one-to-many copy tool's sync engine (`ui_copy_tool.py`).

The engine is shallowly embedded:
* `FileMeta` models a file's `stat` result (`st_size`, `st_mtime`); the
  modification time is kept in nanoseconds so that Python's
  `int(st_mtime)` truncation to whole seconds is `truncSec`
  (`st_mtime` is assumed non-negative, as on any real run).
* `SrcDir`/`SrcForest` model the source tree; every directory carries a
  `readable` flag modelling whether `os.scandir` succeeds on it.
  `walkDir` models `os.walk(src)` with its default `onerror=None`
  semantics: an unreadable directory yields no entry at all (the error is
  swallowed) and is not recursed into, while it still appears in its
  parent's `dirs` listing.
* `DstFS` models the destination filesystem as a directory set plus an
  association list of files; `shutil.copy2` preserves size and
  modification time exactly, and fails when the parent directory is
  missing or when the environmental failure oracle `failEnv` (permission
  denied, disk full, ...) fires for the path.
* `copy_recursively` threads a `RunState` through the walk, recording an
  `Event` trace: `mkdir` for each created subdirectory, one decision per
  file (`ignored`, `copied`, `skipped`, `errorCopy`), and `progress c t`
  for each invocation of the progress callback.
* `ensure_path_mapped` is embedded over `MapEnv`, an oracle record for
  the interactive credential dialogs, the `net use` subprocess outcome
  and the two `os.path.exists` probes.
* `start_copy` models `CopyApp.start_copy`: the up-front source existence
  guard and the per-destination loop whose mapping failures `continue`
  and whose sync exceptions are caught per destination.

File names are Lean `String`s; Python's `str.lower` / `str.endswith` are
modelled over the character list (`lowerChars`, `endsWithB`), which
agrees with Python on the ASCII names the tool manipulates.
-/

/-- Result of `stat` on a file: size in bytes and modification time in
nanoseconds. -/
structure FileMeta where
  size : Nat
  mtimeNs : Nat
  deriving DecidableEq, Repr

/-- Nanoseconds in one second. -/
def nsPerSec : Nat := 1000000000

/-- Python's `int(st_mtime)`: the modification time truncated to whole
seconds. -/
def truncSec (ns : Nat) : Nat := ns / nsPerSec

/-- `files_are_identical(src_file, dst_file)` (lines 53-60): size equal and
truncated mtime equal; a missing destination (`FileNotFoundError`) gives
`False`. -/
def files_are_identical (src : FileMeta) (dst : Option FileMeta) : Bool :=
  match dst with
  | none => false
  | some d => src.size == d.size && truncSec src.mtimeNs == truncSec d.mtimeNs

/-- The copy decision on line 88:
`not dst_file.exists() or not files_are_identical(src_file, dst_file)`. -/
def needs_copy (src : FileMeta) (dst : Option FileMeta) : Bool :=
  !dst.isSome || !files_are_identical src dst

/-- `s.lower()` as a character list (ASCII lowering, as in the names the
tool handles). -/
def lowerChars (s : String) : List Char := s.data.map Char.toLower

/-- `s.endswith(suf)` on character lists. -/
def endsWithB (s suf : List Char) : Bool :=
  if suf.length ≤ s.length then (s.drop (s.length - suf.length)) == suf else false

/-- Line 80: `ignored_exts and any(f.lower().endswith(ext.lower()) for ext
in ignored_exts)`; an absent/empty ignore list is falsy and ignores
nothing. -/
def is_ignored (exts : List String) (f : String) : Bool :=
  !exts.isEmpty && exts.any (fun ext => endsWithB (lowerChars f) (lowerChars ext))

mutual
/-- A source directory: whether `os.scandir` succeeds on it, its files
(name, stat) and its subdirectories. -/
inductive SrcDir where
  | node (readable : Bool) (files : List (String × FileMeta)) (subdirs : SrcForest)
/-- The ordered subdirectory listing of a source directory. -/
inductive SrcForest where
  | nil
  | cons (name : String) (dir : SrcDir) (rest : SrcForest)
end

/-- The names in a subdirectory listing, in order. -/
def forestNames : SrcForest → List String
  | .nil => []
  | .cons n _ rest => n :: forestNames rest

/-- One triple yielded by `os.walk`: the directory's path relative to the
source root, its subdirectory names and its files. -/
structure WalkEntry where
  relRoot : List String
  dirNames : List String
  files : List (String × FileMeta)
  deriving DecidableEq, Repr

mutual
/-- `os.walk` (top-down, `onerror=None`): a readable directory yields its
own triple and then the walks of its subdirectories in order; an
unreadable directory yields nothing (the scan error is silently
swallowed). -/
def walkDir (relRoot : List String) : SrcDir → List WalkEntry
  | .node readable files subs =>
    if readable then
      ⟨relRoot, forestNames subs, files⟩ :: walkForest relRoot subs
    else []
/-- `os.walk` over a subdirectory listing. -/
def walkForest (relRoot : List String) : SrcForest → List WalkEntry
  | .nil => []
  | .cons n d rest => walkDir (relRoot ++ [n]) d ++ walkForest relRoot rest
end

/-- `count_total_files` (lines 62-66): sum of `len(files)` over `os.walk`. -/
def count_total_files (src : SrcDir) : Nat :=
  ((walkDir [] src).map (fun e => e.files.length)).sum

/-- The destination filesystem under the destination base: the set of
existing directories and the existing files, both keyed by path relative
to the destination base (`[]` is the base itself). -/
structure DstFS where
  dirs : List (List String)
  files : List (List String × FileMeta)
  deriving DecidableEq, Repr

/-- First-match association lookup (later writes shadow earlier ones). -/
def lookupFile : List (List String × FileMeta) → List String → Option FileMeta
  | [], _ => none
  | (q, m) :: rest, p => if q = p then some m else lookupFile rest p

/-- `dst_file.exists()` / `FileNotFoundError` probe for a file path. -/
def DstFS.lookup (fs : DstFS) (p : List String) : Option FileMeta :=
  lookupFile fs.files p

/-- Boolean membership of a path in a path list. -/
def memPath : List (List String) → List String → Bool
  | [], _ => false
  | q :: rest, p => if q = p then true else memPath rest p

/-- Whether a directory exists on the destination. -/
def DstFS.dirExists (fs : DstFS) (p : List String) : Bool := memPath fs.dirs p

/-- All ancestors of a path, shortest first, the path itself included. -/
def initsP : List String → List (List String)
  | [] => [[]]
  | a :: t => [] :: (initsP t).map (fun q => a :: q)

/-- `(dst_root / d).mkdir(parents=True, exist_ok=True)` (line 77): the
directory and all its ancestors (including the destination base) come to
exist. -/
def mkdirParents (fs : DstFS) (p : List String) : DstFS :=
  { fs with dirs := initsP p ++ fs.dirs }

/-- `shutil.copy2`'s effect on success: the destination file now carries
the source's size and modification time. -/
def DstFS.setFile (fs : DstFS) (p : List String) (m : FileMeta) : DstFS :=
  { fs with files := (p, m) :: fs.files }

/-- One observable event of a run: a created subdirectory, a per-file
decision (log record), or an invocation of the progress callback. -/
inductive Event where
  | mkdir (path : List String)
  | ignored (path : List String)
  | copied (path : List String)
  | skipped (path : List String)
  | errorCopy (path : List String)
  | progress (processed : Nat) (total : Nat)
  deriving DecidableEq, Repr

/-- The state threaded through `copy_recursively`: the destination
filesystem, the `copied` counter (in truth the processed-file counter)
and the event trace so far. -/
structure RunState where
  fs : DstFS
  copied : Nat
  trace : List Event
  deriving DecidableEq, Repr

/-- The body of the `for f in files` loop (lines 79-98). An ignored file
hits `continue`: no counter bump and no progress callback. Otherwise the
copy/skip decision runs under `try`, a failed copy is logged and
swallowed, and then `copied += 1; progress_callback(copied, total)`
runs unconditionally. `failEnv` is the environmental failure oracle for
`shutil.copy2`; a copy also fails when the parent directory is absent. -/
def processFile (exts : List String) (failEnv : List String → Bool) (total : Nat)
    (relRoot : List String) (st : RunState) (fm : String × FileMeta) : RunState :=
  if is_ignored exts fm.1 then
    { st with trace := st.trace ++ [.ignored (relRoot ++ [fm.1])] }
  else
    let p := relRoot ++ [fm.1]
    if needs_copy fm.2 (st.fs.lookup p) then
      if st.fs.dirExists relRoot && !failEnv p then
        { fs := st.fs.setFile p fm.2,
          copied := st.copied + 1,
          trace := st.trace ++ [.copied p, .progress (st.copied + 1) total] }
      else
        { st with copied := st.copied + 1,
                  trace := st.trace ++ [.errorCopy p, .progress (st.copied + 1) total] }
    else
      { st with copied := st.copied + 1,
                trace := st.trace ++ [.skipped p, .progress (st.copied + 1) total] }

/-- The file loop of one `os.walk` step. -/
def runFiles (exts : List String) (failEnv : List String → Bool) (total : Nat)
    (relRoot : List String) : List (String × FileMeta) → RunState → RunState
  | [], st => st
  | fm :: rest, st =>
    runFiles exts failEnv total relRoot rest (processFile exts failEnv total relRoot st fm)

/-- The `for d in dirs` loop (lines 76-77): each subdirectory of the
visited directory is created under the destination before any file is
processed. -/
def runMkdirs (relRoot : List String) : List String → RunState → RunState
  | [], st => st
  | d :: rest, st =>
    runMkdirs relRoot rest
      { st with fs := mkdirParents st.fs (relRoot ++ [d]),
                trace := st.trace ++ [.mkdir (relRoot ++ [d])] }

/-- One iteration of the `for root, dirs, files in os.walk(src)` loop:
first the subdirectory creations, then the files. -/
def processOne (exts : List String) (failEnv : List String → Bool) (total : Nat)
    (e : WalkEntry) (st : RunState) : RunState :=
  runFiles exts failEnv total e.relRoot e.files (runMkdirs e.relRoot e.dirNames st)

/-- The whole `os.walk` loop over a walk listing. -/
def runWalk (exts : List String) (failEnv : List String → Bool) (total : Nat) :
    List WalkEntry → RunState → RunState
  | [], st => st
  | e :: rest, st => runWalk exts failEnv total rest (processOne exts failEnv total e st)

/-- `copy_recursively(src, dst, ignored_exts, progress_callback)`
(lines 68-98): pre-pass total count, then the walk loop starting from the
given destination filesystem with `copied = 0` and an empty trace. -/
def copy_recursively (exts : List String) (failEnv : List String → Bool)
    (src : SrcDir) (fs0 : DstFS) : RunState :=
  runWalk exts failEnv (count_total_files src) (walkDir [] src) ⟨fs0, 0, []⟩

/-- `platform.system()` outcomes distinguished by `ensure_path_mapped`. -/
inductive SystemOS where
  | windows
  | linux
  | darwin
  | other
  deriving DecidableEq, Repr

/-- Outcome of the `subprocess.run(["net", "use", ...])` call: a return
code, or an exception (caught by the surrounding `try`). -/
inductive CmdOutcome where
  | ok (code : Int)
  | exc
  deriving DecidableEq, Repr

/-- Oracle record for one `ensure_path_mapped` call: the first
`os.path.exists` probe, the platform, the two credential dialog results
(`none` = dialog cancelled), the mount command outcome, and the final
`os.path.exists` probe. -/
structure MapEnv where
  existsBefore : Bool
  system : SystemOS
  username : Option String
  password : Option String
  cmd : CmdOutcome
  existsAfter : Bool
  deriving DecidableEq, Repr

/-- Python falsiness of `simpledialog.askstring`'s result: `None` or the
empty string. -/
def strFalsy : Option String → Bool
  | none => true
  | some s => s == ""

/-- `ensure_path_mapped(share_path, host_type)` (lines 100-138). -/
def ensure_path_mapped (env : MapEnv) (host_type : String) : Bool :=
  if host_type == "local" then env.existsBefore
  else if env.existsBefore then true
  else
    match env.system with
    | .windows =>
      if strFalsy env.username || strFalsy env.password then false
      else
        match env.cmd with
        | .ok code => if code == 0 then true else env.existsAfter
        | .exc => env.existsAfter
    | _ => env.existsAfter

/-- One selected destination as `CopyApp.start_copy` sees it: its name,
host type, the reachability oracle, whether `copy_recursively` raises for
it (`mkdir`/callback exceptions are the only escape routes, caught by the
per-destination `try` on lines 337-344), and the sync inputs. -/
structure Dest where
  name : String
  htype : String
  mapEnv : MapEnv
  excDuringSync : Option String
  exts : List String
  failEnv : List String → Bool
  src : SrcDir
  fs0 : DstFS

/-- What `start_copy` ends up doing for one destination. -/
inductive DestOutcome where
  | mappingFailed
  | syncFailed (msg : String)
  | completed (result : RunState)
  deriving DecidableEq, Repr

/-- The body of the `for name, dst_base, htype in selected` loop
(lines 331-344): mapping failure logs and `continue`s; an exception from
`copy_recursively` is caught and reported for that destination alone;
otherwise the sync runs to completion. -/
def processDest (d : Dest) : String × DestOutcome :=
  if !ensure_path_mapped d.mapEnv d.htype then (d.name, .mappingFailed)
  else
    match d.excDuringSync with
    | some e => (d.name, .syncFailed e)
    | none => (d.name, .completed (copy_recursively d.exts d.failEnv d.src d.fs0))

/-- The destination loop of `CopyApp.start_copy`. -/
def destLoop : List Dest → List (String × DestOutcome)
  | [] => []
  | d :: rest => processDest d :: destLoop rest

/-- `CopyApp.start_copy` (lines 321-347): the up-front source existence
guard aborts the whole run (`none`); otherwise every selected destination
is processed in order. -/
def start_copy (sourceExists : Bool) (dests : List Dest) :
    Option (List (String × DestOutcome)) :=
  if sourceExists then some (destLoop dests) else none

/-- The `(processed, total)` arguments of the progress callback
invocations in a trace, in order. -/
def progressOf (t : List Event) : List (Nat × Nat) :=
  t.filterMap (fun e => match e with | .progress c tot => some (c, tot) | _ => none)

/-- Paths of `Copied:` log records in a trace. -/
def copiedPathsOf (t : List Event) : List (List String) :=
  t.filterMap (fun e => match e with | .copied p => some p | _ => none)

/-- Paths of `Error copying` log records in a trace. -/
def errorPathsOf (t : List Event) : List (List String) :=
  t.filterMap (fun e => match e with | .errorCopy p => some p | _ => none)

/-- Paths of `Skipped (identical)` log records in a trace. -/
def skippedPathsOf (t : List Event) : List (List String) :=
  t.filterMap (fun e => match e with | .skipped p => some p | _ => none)

/-- Whether an event is a per-file decision (ignore, copy, skip or copy
error). -/
def isDecision : Event → Bool
  | .ignored _ => true
  | .copied _ => true
  | .skipped _ => true
  | .errorCopy _ => true
  | _ => false

/-- Number of per-file decisions recorded in a trace. -/
def decCount (t : List Event) : Nat := (t.filter isDecision).length

/-- Total number of files listed by a walk. -/
def totalW (w : List WalkEntry) : Nat := (w.map (fun e => e.files.length)).sum

/-- Number of non-ignored files listed by a walk. -/
def nonIgnoredW (exts : List String) (w : List WalkEntry) : Nat :=
  (w.map (fun e => (e.files.filter (fun fm => !is_ignored exts fm.1)).length)).sum

/-- Number of ignored-extension files listed by a walk. -/
def ignoredW (exts : List String) (w : List WalkEntry) : Nat :=
  (w.map (fun e => (e.files.filter (fun fm => is_ignored exts fm.1)).length)).sum

/-- The destination paths of all files listed by a walk. -/
def filePathsW (w : List WalkEntry) : List (List String) :=
  w.flatMap (fun e => e.files.map (fun fm => e.relRoot ++ [fm.1]))

/-- The (destination path, source stat) pairs of the non-ignored files
listed by a walk. -/
def fileEntriesNI (exts : List String) (w : List WalkEntry) :
    List (List String × FileMeta) :=
  w.flatMap (fun e =>
    (e.files.filter (fun fm => !is_ignored exts fm.1)).map
      (fun fm => (e.relRoot ++ [fm.1], fm.2)))

/-- The destination directories a walk creates: for each visited
directory, its subdirectories. -/
def allMkdirs (w : List WalkEntry) : List (List String) :=
  w.flatMap (fun e => e.dirNames.map (fun d => e.relRoot ++ [d]))

/-- The walk entries whose directories are guaranteed to exist on the
destination by the time they are visited: each entry's own directory is
either the destination base (`[]`) or was listed — and therefore created —
by an earlier entry; `created` accumulates the directories created so
far. -/
inductive GoodWalk : List (List String) → List WalkEntry → Prop
  | nil : ∀ created, GoodWalk created []
  | cons : ∀ (created : List (List String)) (e : WalkEntry) (w : List WalkEntry),
      (e.relRoot = [] ∨ e.relRoot ∈ created) →
      GoodWalk (created ++ e.dirNames.map (fun d => e.relRoot ++ [d])) w →
      GoodWalk created (e :: w)

section Lemmas

/-- `memPath` agrees with list membership. -/
theorem memPath_eq_true_iff (l : List (List String)) (p : List String) :
    memPath l p = true ↔ p ∈ l := by
  induction l with
  | nil => simp [memPath]
  | cons q rest ih =>
    by_cases h : q = p
    · subst h; simp [memPath]
    · simp [memPath, h, ih]
      exact fun hq => absurd hq.symm h

theorem memPath_append (l₁ l₂ : List (List String)) (p : List String) :
    memPath (l₁ ++ l₂) p = (memPath l₁ p || memPath l₂ p) := by
  induction l₁ with
  | nil => simp [memPath]
  | cons q rest ih =>
    by_cases h : q = p <;> simp [memPath, h, ih]

/-- A path is among its own ancestors. -/
theorem memPath_initsP_self (p : List String) : memPath (initsP p) p = true := by
  induction p with
  | nil => simp [initsP, memPath]
  | cons a t ih =>
    have hmap : ∀ (l : List (List String)) (q : List String),
        memPath (l.map (fun x => a :: x)) (a :: q) = memPath l q := by
      intro l q
      induction l with
      | nil => simp [memPath]
      | cons x xs ihx =>
        by_cases hx : x = q
        · subst hx; simp [memPath]
        · have : ¬(a :: x = a :: q) := by simp [hx]
          simp [memPath, hx, this, ihx]
    simp [initsP, memPath, hmap, ih]

end Lemmas

/-- Claim C1: the change classifier orders a copy exactly when the
destination file is missing, its size differs, or its modification time
truncated to whole seconds differs; altering only the sub-second part of
the modification time with unchanged size never orders a copy. -/
theorem C1_change_classifier :
    (∀ (src : FileMeta) (dst : Option FileMeta),
      needs_copy src dst = true ↔
        dst = none ∨ ∃ d, dst = some d ∧
          (d.size ≠ src.size ∨ truncSec d.mtimeNs ≠ truncSec src.mtimeNs)) ∧
    (∀ (sz sec a b : Nat), a < nsPerSec → b < nsPerSec →
      needs_copy ⟨sz, sec * nsPerSec + a⟩ (some ⟨sz, sec * nsPerSec + b⟩) = false) := by
  have hdiv : ∀ (sec x : Nat), x < nsPerSec → (sec * nsPerSec + x) / nsPerSec = sec := by
    intro sec x hx
    rw [Nat.mul_comm sec nsPerSec, Nat.mul_add_div (by norm_num [nsPerSec]),
        Nat.div_eq_of_lt hx]
    omega
  constructor
  · intro src dst
    cases dst with
    | none => simp [needs_copy, files_are_identical]
    | some d =>
      simp only [needs_copy, files_are_identical, Option.isSome_some, Bool.not_true,
        Bool.false_or, Bool.not_eq_true', Bool.and_eq_false_iff,
        beq_eq_false_iff_ne, ne_eq]
      constructor
      · rintro (h | h)
        · exact Or.inr ⟨d, rfl, Or.inl (fun he => h he.symm)⟩
        · exact Or.inr ⟨d, rfl, Or.inr (fun he => h he.symm)⟩
      · rintro (h | ⟨d', hd', h | h⟩)
        · simp at h
        · cases Option.some.inj hd'
          exact Or.inl (fun he => h he.symm)
        · cases Option.some.inj hd'
          exact Or.inr (fun he => h he.symm)
  · intro sz sec a b ha hb
    simp [needs_copy, files_are_identical, truncSec, hdiv sec a ha, hdiv sec b hb]

/-- Witness for C1: a 0.7-second modification-time change inside the same
whole second, with unchanged size, yields no copy. -/
theorem C1_change_classifier_witness :
    needs_copy ⟨5, 2 * nsPerSec + 300⟩ (some ⟨5, 2 * nsPerSec + 700000300⟩) = false :=
  C1_change_classifier.2 5 2 300 700000300 (by norm_num [nsPerSec]) (by norm_num [nsPerSec])

/-- Claim C4: a file is ignored iff its name, lowercased, ends with some
configured suffix (lowercased); `"x.TMP"` is ignored by `".tmp"`,
`"x.tmp2"` is not (suffix, not substring), and an empty ignore list
ignores nothing. -/
theorem C4_extension_filter :
    (∀ (exts : List String) (f : String),
      is_ignored exts f = true ↔
        ∃ ext ∈ exts, endsWithB (lowerChars f) (lowerChars ext) = true) ∧
    is_ignored [".tmp"] "x.TMP" = true ∧
    is_ignored [".tmp"] "x.tmp2" = false ∧
    (∀ f : String, is_ignored [] f = false) := by
  refine ⟨?_, by decide, by decide, ?_⟩
  · intro exts f
    cases exts with
    | nil => simp [is_ignored]
    | cons e rest => simp [is_ignored, List.any_eq_true]
  · intro f
    simp [is_ignored]

/-- Counterexample to claim C3: on Windows, when the mapping command
reports success (`net use` exit code 0), `ensure_path_mapped` returns
`true` on the strength of the exit status alone, even though the
post-attempt existence probe would report the path still missing — it
does not return a final existence re-check. -/
theorem C3_counterexample :
    ensure_path_mapped ⟨false, .windows, some "u", some "pw", .ok 0, false⟩ "smb" = true ∧
    (⟨false, .windows, some "u", some "pw", .ok 0, false⟩ : MapEnv).existsAfter = false := by
  decide

/-- Claim C3 as amended: for an smb destination whose path does not
initially exist, `ensure_path_mapped` never throws, and (a) on Windows
with credentials supplied and a mapping command reporting success it
returns `true`, trusting the exit status without re-checking; (b) on
Windows with missing credentials it returns `false` immediately, without
re-checking; (c) on Windows, when the command reports a non-zero exit
status or throws, it falls through to the final existence re-check; (d)
on any non-Windows platform it likewise returns the final existence
re-check. -/
theorem C3_reachability_amended :
    ∀ (u pw : Option String) (cmd : CmdOutcome) (after : Bool) (sys : SystemOS),
      (strFalsy u = false → strFalsy pw = false →
        ensure_path_mapped ⟨false, .windows, u, pw, .ok 0, after⟩ "smb" = true) ∧
      (strFalsy u = true ∨ strFalsy pw = true →
        ensure_path_mapped ⟨false, .windows, u, pw, cmd, after⟩ "smb" = false) ∧
      ((cmd = .exc ∨ ∃ c, cmd = .ok c ∧ c ≠ 0) →
        strFalsy u = false → strFalsy pw = false →
        ensure_path_mapped ⟨false, .windows, u, pw, cmd, after⟩ "smb" = after) ∧
      (sys ≠ .windows →
        ensure_path_mapped ⟨false, sys, u, pw, cmd, after⟩ "smb" = after) := by
  intro u pw cmd after sys
  refine ⟨?_, ?_, ?_, ?_⟩
  · intro hu hpw
    simp [ensure_path_mapped, hu, hpw]
  · intro h
    rcases h with h | h <;> simp [ensure_path_mapped, h]
  · rintro (rfl | ⟨c, rfl, hc⟩) hu hpw
    · simp [ensure_path_mapped, hu, hpw]
    · simp [ensure_path_mapped, hu, hpw, hc]
  · intro hsys
    cases sys with
    | windows => exact absurd rfl hsys
    | linux => simp [ensure_path_mapped]
    | darwin => simp [ensure_path_mapped]
    | other => simp [ensure_path_mapped]

/-- Witness for C3 (amended): a failed mapping command on Windows with
credentials supplied degrades to the final existence probe (here:
`true`). -/
theorem C3_reachability_amended_witness :
    ensure_path_mapped ⟨false, .windows, some "u", some "pw", .ok 2, true⟩ "smb" = true :=
  (C3_reachability_amended (some "u") (some "pw") (.ok 2) true .linux).2.2.1
    (Or.inr ⟨2, rfl, by decide⟩) (by decide) (by decide)

theorem progressOf_append (t₁ t₂ : List Event) :
    progressOf (t₁ ++ t₂) = progressOf t₁ ++ progressOf t₂ := by
  simp [progressOf]

theorem copiedPathsOf_append (t₁ t₂ : List Event) :
    copiedPathsOf (t₁ ++ t₂) = copiedPathsOf t₁ ++ copiedPathsOf t₂ := by
  simp [copiedPathsOf]

theorem errorPathsOf_append (t₁ t₂ : List Event) :
    errorPathsOf (t₁ ++ t₂) = errorPathsOf t₁ ++ errorPathsOf t₂ := by
  simp [errorPathsOf]

theorem skippedPathsOf_append (t₁ t₂ : List Event) :
    skippedPathsOf (t₁ ++ t₂) = skippedPathsOf t₁ ++ skippedPathsOf t₂ := by
  simp [skippedPathsOf]

theorem decCount_append (t₁ t₂ : List Event) :
    decCount (t₁ ++ t₂) = decCount t₁ + decCount t₂ := by
  simp [decCount]

/-- An ignored file only logs the skip; no counter bump, no callback, no
filesystem change (line 80-82's `continue`). -/
theorem processFile_ignored (exts : List String) (failEnv : List String → Bool)
    (total : Nat) (relRoot : List String) (st : RunState) (f : String) (m : FileMeta)
    (h : is_ignored exts f = true) :
    processFile exts failEnv total relRoot st (f, m) =
      { st with trace := st.trace ++ [.ignored (relRoot ++ [f])] } := by
  simp [processFile, h]

/-- A non-ignored file always bumps the counter, appends exactly one
decision event followed by one progress event, and leaves the directory
set unchanged. -/
theorem processFile_not_ignored (exts : List String) (failEnv : List String → Bool)
    (total : Nat) (relRoot : List String) (st : RunState) (f : String) (m : FileMeta)
    (h : is_ignored exts f = false) :
    ∃ (fs' : DstFS) (ev : Event),
      processFile exts failEnv total relRoot st (f, m) =
        ⟨fs', st.copied + 1, st.trace ++ [ev, .progress (st.copied + 1) total]⟩ ∧
      isDecision ev = true ∧ progressOf [ev] = [] ∧ (∀ p, ev ≠ .mkdir p) ∧
      fs'.dirs = st.fs.dirs := by
  simp only [processFile, h, Bool.false_eq_true, if_false]
  by_cases hc : needs_copy m (st.fs.lookup (relRoot ++ [f])) = true
  · simp only [hc, if_true]
    by_cases hd : (st.fs.dirExists relRoot && !failEnv (relRoot ++ [f])) = true
    · simp only [hd, if_true]
      exact ⟨_, _, rfl, rfl, rfl, fun p hp => Event.noConfusion hp, rfl⟩
    · simp only [Bool.not_eq_true] at hd
      simp only [hd, Bool.false_eq_true, if_false]
      exact ⟨_, _, rfl, rfl, rfl, fun p hp => Event.noConfusion hp, rfl⟩
  · simp only [Bool.not_eq_true] at hc
    simp only [hc, Bool.false_eq_true, if_false]
    exact ⟨_, _, rfl, rfl, rfl, fun p hp => Event.noConfusion hp, rfl⟩

/-- The subdirectory-creation loop appends exactly the `mkdir` events. -/
theorem runMkdirs_trace (relRoot : List String) (ds : List String) (st : RunState) :
    (runMkdirs relRoot ds st).trace =
      st.trace ++ ds.map (fun d => Event.mkdir (relRoot ++ [d])) := by
  induction ds generalizing st with
  | nil => simp [runMkdirs]
  | cons d rest ih => simp [runMkdirs, ih]

/-- The subdirectory-creation loop touches neither the counter nor the
destination files. -/
theorem runMkdirs_state (relRoot : List String) (ds : List String) (st : RunState) :
    (runMkdirs relRoot ds st).copied = st.copied ∧
    (runMkdirs relRoot ds st).fs.files = st.fs.files := by
  induction ds generalizing st with
  | nil => simp [runMkdirs]
  | cons d rest ih => simp [runMkdirs, ih, mkdirParents]

/-- Directories only accumulate across the subdirectory-creation loop. -/
theorem runMkdirs_dirs_mono (relRoot : List String) (ds : List String) (st : RunState)
    (p : List String) (h : memPath st.fs.dirs p = true) :
    memPath (runMkdirs relRoot ds st).fs.dirs p = true := by
  induction ds generalizing st with
  | nil => simpa [runMkdirs] using h
  | cons d rest ih =>
    simp only [runMkdirs]
    exact ih _ (by simp [mkdirParents, memPath_append, h])

/-- Each listed subdirectory exists after the subdirectory-creation
loop. -/
theorem runMkdirs_dirs_new (relRoot : List String) (ds : List String) :
    ∀ (st : RunState) (d : String), d ∈ ds →
      memPath (runMkdirs relRoot ds st).fs.dirs (relRoot ++ [d]) = true := by
  induction ds with
  | nil => intro st d h; cases h
  | cons d₀ rest ih =>
    intro st d h
    simp only [runMkdirs]
    rcases List.mem_cons.mp h with rfl | h'
    · exact runMkdirs_dirs_mono _ _ _ _
        (by simp [mkdirParents, memPath_append, memPath_initsP_self])
    · exact ih _ _ h'

/-- A reachable destination with no exception runs the full sync. -/
theorem processDest_ok (d : Dest) (hexc : d.excDuringSync = none)
    (hmap : ensure_path_mapped d.mapEnv d.htype = true) :
    processDest d = (d.name, .completed (copy_recursively d.exts d.failEnv d.src d.fs0)) := by
  simp [processDest, hmap, hexc]

/-- Claim C6: the destination loop processes every selected destination
independently: the outcome list maps each destination to its own outcome,
replacing one destination (however broken) changes only its own entry,
the loop never drops or aborts destinations, and a reachable destination
with no exception always completes its full sync. -/
theorem C6_partial_failure_isolation :
    (∀ dests : List Dest, destLoop dests = dests.map processDest) ∧
    (∀ (pre post : List Dest) (d : Dest),
      destLoop (pre ++ d :: post) = destLoop pre ++ processDest d :: destLoop post) ∧
    (∀ dests : List Dest, (destLoop dests).length = dests.length ∧
      start_copy true dests = some (destLoop dests)) ∧
    (∀ d : Dest, d.excDuringSync = none → ensure_path_mapped d.mapEnv d.htype = true →
      processDest d =
        (d.name, .completed (copy_recursively d.exts d.failEnv d.src d.fs0))) := by
  have hmap : ∀ dests : List Dest, destLoop dests = dests.map processDest := by
    intro dests
    induction dests with
    | nil => rfl
    | cons d rest ih => simp [destLoop, ih]
  refine ⟨hmap, ?_, ?_, ?_⟩
  · intro pre post d
    simp [hmap]
  · intro dests
    exact ⟨by simp [hmap], by simp [start_copy]⟩
  · intro d hexc hm
    exact processDest_ok d hexc hm

/-- Witness for C6: a local destination whose path exists and whose sync
raises nothing is reported completed with its full sync result. -/
theorem C6_partial_failure_isolation_witness :
    processDest ⟨"m1", "local", ⟨true, .other, none, none, .exc, true⟩, none, [],
        (fun _ => false), .node true [("a.txt", ⟨10, 0⟩)] .nil, ⟨[[]], []⟩⟩ =
      ("m1", .completed (copy_recursively [] (fun _ => false)
        (.node true [("a.txt", ⟨10, 0⟩)] .nil) ⟨[[]], []⟩)) :=
  C6_partial_failure_isolation.2.2.2
    ⟨"m1", "local", ⟨true, .other, none, none, .exc, true⟩, none, [],
      (fun _ => false), .node true [("a.txt", ⟨10, 0⟩)] .nil, ⟨[[]], []⟩⟩
    rfl (by decide)

/-- `mkdir` events are invisible to every per-file projection. -/
theorem silent_mkdir_map (r : List String) (ds : List String) :
    progressOf (ds.map (fun d => Event.mkdir (r ++ [d]))) = [] ∧
    copiedPathsOf (ds.map (fun d => Event.mkdir (r ++ [d]))) = [] ∧
    errorPathsOf (ds.map (fun d => Event.mkdir (r ++ [d]))) = [] ∧
    skippedPathsOf (ds.map (fun d => Event.mkdir (r ++ [d]))) = [] ∧
    decCount (ds.map (fun d => Event.mkdir (r ++ [d]))) = 0 := by
  induction ds with
  | nil => exact ⟨rfl, rfl, rfl, rfl, rfl⟩
  | cons d rest ih =>
    refine ⟨?_, ?_, ?_, ?_, ?_⟩ <;>
      simp [progressOf, copiedPathsOf, errorPathsOf, skippedPathsOf, decCount,
        isDecision]

/-- Concatenating two consecutive progress-report ranges. -/
theorem range_map_add (base total k₁ k₂ : Nat) :
    (List.range k₁).map (fun i => (base + i + 1, total)) ++
      (List.range k₂).map (fun i => (base + k₁ + i + 1, total)) =
    (List.range (k₁ + k₂)).map (fun i => (base + i + 1, total)) := by
  rw [List.range_add, List.map_append, List.map_map]
  congr 1
  apply List.map_congr_left
  intro a _
  simp only [Function.comp_apply, Prod.mk.injEq]
  exact ⟨by omega, trivial⟩

/-- The file loop: its trace extends the incoming trace, creates no
directories and records no `mkdir` events. -/
theorem runFiles_trace_shape (exts : List String) (failEnv : List String → Bool)
    (total : Nat) (relRoot : List String) :
    ∀ (files : List (String × FileMeta)) (st : RunState),
      ∃ Δ, (runFiles exts failEnv total relRoot files st).trace = st.trace ++ Δ ∧
        (∀ p, Event.mkdir p ∉ Δ) ∧
        (runFiles exts failEnv total relRoot files st).fs.dirs = st.fs.dirs := by
  intro files
  induction files with
  | nil => intro st; exact ⟨[], by simp [runFiles], by simp, by simp [runFiles]⟩
  | cons fm rest ih =>
    intro st
    obtain ⟨f, m⟩ := fm
    by_cases hig : is_ignored exts f = true
    · rw [runFiles, processFile_ignored exts failEnv total relRoot st f m hig]
      obtain ⟨Δ, hΔ, hnm, hdirs⟩ :=
        ih { st with trace := st.trace ++ [.ignored (relRoot ++ [f])] }
      refine ⟨[.ignored (relRoot ++ [f])] ++ Δ, ?_, ?_, ?_⟩
      · simpa using hΔ
      · intro p hp
        rcases List.mem_append.mp hp with hp | hp
        · simp at hp
        · exact hnm p hp
      · simpa using hdirs
    · rw [runFiles]
      obtain ⟨fs', ev, heq, _, _, hnmAll, hdirs'⟩ :=
        processFile_not_ignored exts failEnv total relRoot st f m
          (Bool.not_eq_true _ ▸ hig)
      rw [heq]
      obtain ⟨Δ, hΔ, hnm, hdirs⟩ :=
        ih ⟨fs', st.copied + 1, st.trace ++ [ev, .progress (st.copied + 1) total]⟩
      refine ⟨[ev, .progress (st.copied + 1) total] ++ Δ, ?_, ?_, ?_⟩
      · simpa using hΔ
      · intro p hp
        rcases List.mem_append.mp hp with hp | hp
        · rcases List.mem_cons.mp hp with rfl | hp
          · exact hnmAll p rfl
          · simp at hp
        · exact hnm p hp
      · exact hdirs.trans hdirs'

/-- The file loop reports progress exactly once per non-ignored file,
with consecutive counter values and the fixed total. -/
theorem runFiles_progress (exts : List String) (failEnv : List String → Bool)
    (total : Nat) (relRoot : List String) :
    ∀ (files : List (String × FileMeta)) (st : RunState),
      progressOf (runFiles exts failEnv total relRoot files st).trace =
        progressOf st.trace ++
          (List.range ((files.filter (fun fm => !is_ignored exts fm.1)).length)).map
            (fun i => (st.copied + i + 1, total)) ∧
      (runFiles exts failEnv total relRoot files st).copied =
        st.copied + (files.filter (fun fm => !is_ignored exts fm.1)).length := by
  intro files
  induction files with
  | nil => intro st; simp [runFiles]
  | cons fm rest ih =>
    intro st
    obtain ⟨f, m⟩ := fm
    by_cases hig : is_ignored exts f = true
    · rw [runFiles, processFile_ignored exts failEnv total relRoot st f m hig]
      have h := ih { st with trace := st.trace ++ [.ignored (relRoot ++ [f])] }
      refine ⟨?_, ?_⟩
      · rw [h.1]
        simp [progressOf_append, progressOf, hig]
      · rw [h.2]
        simp [hig]
    · rw [runFiles]
      obtain ⟨fs', ev, heq, _, hpe, _, _⟩ :=
        processFile_not_ignored exts failEnv total relRoot st f m
          (Bool.not_eq_true _ ▸ hig)
      rw [heq]
      have h := ih ⟨fs', st.copied + 1, st.trace ++ [ev, .progress (st.copied + 1) total]⟩
      have htr : progressOf (st.trace ++ [ev, .progress (st.copied + 1) total]) =
          progressOf st.trace ++ [(st.copied + 1, total)] := by
        have : [ev, Event.progress (st.copied + 1) total] =
            [ev] ++ [Event.progress (st.copied + 1) total] := rfl
        rw [this, ← List.append_assoc, progressOf_append, progressOf_append, hpe]
        simp [progressOf]
      have hsplit := range_map_add st.copied total 1
        ((rest.filter (fun fm => !is_ignored exts fm.1)).length)
      refine ⟨?_, ?_⟩
      · rw [h.1]
        simp only [htr]
        rw [List.append_assoc]
        rw [show ((f, m) :: rest).filter (fun fm => !is_ignored exts fm.1) =
            (f, m) :: rest.filter (fun fm => !is_ignored exts fm.1) by simp [hig]]
        simp only [List.length_cons]
        rw [Nat.add_comm 1 ((rest.filter (fun fm => !is_ignored exts fm.1)).length)] at hsplit
        exact congrArg _ hsplit
      · rw [h.2]
        simp [hig]
        omega

/-- The file loop records exactly one decision per listed file, whether
ignored, copied, skipped or failed. -/
theorem runFiles_decCount (exts : List String) (failEnv : List String → Bool)
    (total : Nat) (relRoot : List String) :
    ∀ (files : List (String × FileMeta)) (st : RunState),
      decCount (runFiles exts failEnv total relRoot files st).trace =
        decCount st.trace + files.length := by
  intro files
  induction files with
  | nil => intro st; simp [runFiles]
  | cons fm rest ih =>
    intro st
    obtain ⟨f, m⟩ := fm
    by_cases hig : is_ignored exts f = true
    · rw [runFiles, processFile_ignored exts failEnv total relRoot st f m hig]
      rw [ih]
      dsimp only
      rw [decCount_append]
      have h1 : decCount [Event.ignored (relRoot ++ [f])] = 1 := rfl
      rw [h1]
      simp [List.length_cons]
      omega
    · rw [runFiles]
      obtain ⟨fs', ev, heq, hdec, _, _, _⟩ :=
        processFile_not_ignored exts failEnv total relRoot st f m
          (Bool.not_eq_true _ ▸ hig)
      rw [heq, ih]
      dsimp only
      have h2 : decCount (st.trace ++ [ev, Event.progress (st.copied + 1) total]) =
          decCount st.trace + 1 := by
        rw [show [ev, Event.progress (st.copied + 1) total] =
            [ev] ++ [Event.progress (st.copied + 1) total] from rfl,
          ← List.append_assoc, decCount_append, decCount_append]
        have h3 : decCount [ev] = 1 := by simp [decCount, List.filter_cons, hdec]
        have h4 : decCount [Event.progress (st.copied + 1) total] = 0 := rfl
        rw [h3, h4]
      rw [h2]
      simp [List.length_cons]
      omega

/-- One walk step reports progress once per non-ignored file and bumps
the counter accordingly. -/
theorem processOne_progress (exts : List String) (failEnv : List String → Bool)
    (total : Nat) (e : WalkEntry) (st : RunState) :
    progressOf (processOne exts failEnv total e st).trace =
      progressOf st.trace ++
        (List.range ((e.files.filter (fun fm => !is_ignored exts fm.1)).length)).map
          (fun i => (st.copied + i + 1, total)) ∧
    (processOne exts failEnv total e st).copied =
      st.copied + (e.files.filter (fun fm => !is_ignored exts fm.1)).length := by
  unfold processOne
  have hmk := runMkdirs_trace e.relRoot e.dirNames st
  have hst := runMkdirs_state e.relRoot e.dirNames st
  have h := runFiles_progress exts failEnv total e.relRoot e.files
    (runMkdirs e.relRoot e.dirNames st)
  refine ⟨?_, ?_⟩
  · rw [h.1, hmk, progressOf_append, (silent_mkdir_map e.relRoot e.dirNames).1, hst.1]
    simp
  · rw [h.2, hst.1]

/-- The walk loop's progress reports are the consecutive counter values
`st.copied + 1, ...` up to the number of non-ignored files, each paired
with the fixed total. -/
theorem runWalk_progress (exts : List String) (failEnv : List String → Bool)
    (total : Nat) :
    ∀ (w : List WalkEntry) (st : RunState),
      progressOf (runWalk exts failEnv total w st).trace =
        progressOf st.trace ++
          (List.range (nonIgnoredW exts w)).map (fun i => (st.copied + i + 1, total)) ∧
      (runWalk exts failEnv total w st).copied = st.copied + nonIgnoredW exts w := by
  intro w
  induction w with
  | nil => intro st; simp [runWalk, nonIgnoredW]
  | cons e rest ih =>
    intro st
    rw [runWalk]
    have hp := processOne_progress exts failEnv total e st
    have h := ih (processOne exts failEnv total e st)
    have hni : nonIgnoredW exts (e :: rest) =
        (e.files.filter (fun fm => !is_ignored exts fm.1)).length +
          nonIgnoredW exts rest := by
      simp [nonIgnoredW]
    refine ⟨?_, ?_⟩
    · rw [h.1, hp.1, hp.2, List.append_assoc, hni]
      exact congrArg _ (range_map_add st.copied total _ _)
    · rw [h.2, hp.2, hni]
      omega

/-- The walk loop records exactly one decision per listed file. -/
theorem runWalk_decCount (exts : List String) (failEnv : List String → Bool)
    (total : Nat) :
    ∀ (w : List WalkEntry) (st : RunState),
      decCount (runWalk exts failEnv total w st).trace = decCount st.trace + totalW w := by
  intro w
  induction w with
  | nil => intro st; simp [runWalk, totalW]
  | cons e rest ih =>
    intro st
    rw [runWalk, ih]
    unfold processOne
    rw [runFiles_decCount, runMkdirs_trace, decCount_append,
      (silent_mkdir_map e.relRoot e.dirNames).2.2.2.2]
    simp [totalW]
    omega

theorem filter_split_length (l : List (String × FileMeta))
    (p : (String × FileMeta) → Bool) :
    (l.filter (fun x => !p x)).length + (l.filter p).length = l.length := by
  induction l with
  | nil => rfl
  | cons x t ih => by_cases h : p x <;> simp [List.filter_cons, h] <;> omega

/-- Non-ignored and ignored files together exhaust the walk's files. -/
theorem niw_iw_total (exts : List String) :
    ∀ w : List WalkEntry, nonIgnoredW exts w + ignoredW exts w = totalW w := by
  intro w
  induction w with
  | nil => rfl
  | cons e rest ih =>
    have h := filter_split_length e.files (fun fm => is_ignored exts fm.1)
    simp only [nonIgnoredW, ignoredW, totalW, List.map_cons, List.sum_cons] at ih ⊢
    omega

/-- Counterexample to claim C2: for a source holding a single
ignored-extension file, the `continue` on line 82 skips the counter bump
and the callback, so the callback is never invoked at all — no report
follows the ignore decision and no final report equals the total `1`. -/
theorem C2_counterexample :
    progressOf (copy_recursively [".tmp"] (fun _ => false)
      (SrcDir.node true [("b.tmp", ⟨5, 0⟩)] .nil) ⟨[[]], []⟩).trace = [] ∧
    count_total_files (SrcDir.node true [("b.tmp", ⟨5, 0⟩)] .nil) = 1 ∧
    Event.ignored ["b.tmp"] ∈ (copy_recursively [".tmp"] (fun _ => false)
      (SrcDir.node true [("b.tmp", ⟨5, 0⟩)] .nil) ⟨[[]], []⟩).trace := by
  decide

/-- Claim C2 as amended: the progress callback is invoked after every
non-ignored file decision (copy, skip or error) but not after an ignore
decision; the reports are exactly `(1, total), ..., (k, total)` where
`total` is the pre-pass count of all files (ignored ones included) and
`k` is the number of non-ignored files, so the sequence is non-decreasing
and the final reported value is `total` minus the number of
ignored-extension files. -/
theorem C2_progress_amended :
    ∀ (exts : List String) (failEnv : List String → Bool) (src : SrcDir) (fs0 : DstFS),
      progressOf (copy_recursively exts failEnv src fs0).trace =
        (List.range (nonIgnoredW exts (walkDir [] src))).map
          (fun i => (i + 1, count_total_files src)) ∧
      (∀ pr ∈ progressOf (copy_recursively exts failEnv src fs0).trace,
        pr.2 = count_total_files src) ∧
      List.Chain' (fun a b : Nat × Nat => a.1 ≤ b.1)
        (progressOf (copy_recursively exts failEnv src fs0).trace) ∧
      nonIgnoredW exts (walkDir [] src) + ignoredW exts (walkDir [] src) =
        count_total_files src := by
  intro exts failEnv src fs0
  have hmain := runWalk_progress exts failEnv (count_total_files src)
    (walkDir [] src) ⟨fs0, 0, []⟩
  have hfirst : progressOf (copy_recursively exts failEnv src fs0).trace =
      (List.range (nonIgnoredW exts (walkDir [] src))).map
        (fun i => (i + 1, count_total_files src)) := by
    rw [copy_recursively, hmain.1]
    simp [progressOf]
  refine ⟨hfirst, ?_, ?_, ?_⟩
  · intro pr hpr
    rw [hfirst] at hpr
    obtain ⟨i, _, rfl⟩ := List.mem_map.mp hpr
    rfl
  · rw [hfirst]
    exact List.Pairwise.chain'
      (List.Pairwise.map _ (fun a b hab => by simpa using Nat.le_of_lt (by omega))
        (List.pairwise_lt_range _))
  · exact niw_iw_total exts (walkDir [] src)

/-- Witness for C2 (amended): for a source with one real file and one
ignored file, the only report is `(1, 2)`, whose total is the pre-pass
count of both files. -/
theorem C2_progress_amended_witness :
    ((1 : Nat), (2 : Nat)).2 =
      count_total_files (SrcDir.node true [("a.txt", ⟨10, 0⟩), ("b.tmp", ⟨5, 0⟩)] .nil) :=
  (C2_progress_amended [".tmp"] (fun _ => false)
    (SrcDir.node true [("a.txt", ⟨10, 0⟩), ("b.tmp", ⟨5, 0⟩)] .nil) ⟨[[]], []⟩).2.1
    (1, 2) (by decide)

/-- Claim C7: a failing copy of a non-ignored file is caught locally: the
step records exactly the error and the progress report, changes no file
(neither a copy nor a skip is recorded), still bumps the counter, and the
loop goes on — over any whole run, every listed file receives exactly one
decision, failures notwithstanding. -/
theorem C7_copy_failure_nonfatal :
    (∀ (exts : List String) (failEnv : List String → Bool) (total : Nat)
        (relRoot : List String) (st : RunState) (f : String) (m : FileMeta),
      is_ignored exts f = false →
      needs_copy m (st.fs.lookup (relRoot ++ [f])) = true →
      (st.fs.dirExists relRoot = false ∨ failEnv (relRoot ++ [f]) = true) →
      processFile exts failEnv total relRoot st (f, m) =
        { st with copied := st.copied + 1,
                  trace := st.trace ++ [.errorCopy (relRoot ++ [f]),
                                        .progress (st.copied + 1) total] }) ∧
    (∀ (exts : List String) (failEnv : List String → Bool) (src : SrcDir) (fs0 : DstFS),
      decCount (copy_recursively exts failEnv src fs0).trace = count_total_files src) := by
  constructor
  · intro exts failEnv total relRoot st f m hig hnc hfail
    have hcond : (st.fs.dirExists relRoot && !failEnv (relRoot ++ [f])) = false := by
      rcases hfail with h | h <;> simp [h]
    simp [processFile, hig, hnc, hcond]
  · intro exts failEnv src fs0
    rw [copy_recursively, runWalk_decCount]
    have : decCount ([] : List Event) = 0 := rfl
    rw [this, Nat.zero_add]
    rfl

/-- Witness for C7: a copy that fails (environmental failure) records the
error and the progress report, and nothing else. -/
theorem C7_copy_failure_nonfatal_witness :
    processFile [] (fun _ => true) 1 [] ⟨⟨[[]], []⟩, 0, []⟩ ("a", ⟨1, 0⟩) =
      ⟨⟨[[]], []⟩, 1, [.errorCopy ["a"], .progress 1 1]⟩ :=
  C7_copy_failure_nonfatal.1 [] (fun _ => true) 1 [] ⟨⟨[[]], []⟩, 0, []⟩ "a" ⟨1, 0⟩
    (by decide) (by decide) (Or.inr rfl)

/-- Counterexample to claim C8: a source root that exists but cannot be
enumerated (scandir fails) does not abort anything — `os.walk` swallows
the error, the run returns normally with an empty trace (no error event)
and the orchestrator reports the destination completed. -/
theorem C8_counterexample :
    copy_recursively [] (fun _ => false)
        (SrcDir.node false [("a.txt", ⟨10, 0⟩)] .nil) ⟨[[]], []⟩ =
      ⟨⟨[[]], []⟩, 0, []⟩ ∧
    processDest ⟨"m", "local", ⟨true, .other, none, none, .exc, true⟩, none, [],
        (fun _ => false), .node false [("a.txt", ⟨10, 0⟩)] .nil, ⟨[[]], []⟩⟩ =
      ("m", .completed ⟨⟨[[]], []⟩, 0, []⟩) := by
  constructor
  · decide
  · rw [processDest_ok _ rfl (by decide)]
    decide

/-- Claim C8 as amended: a non-existent source path is rejected by
`start_copy`'s up-front existence check, aborting the whole run before
any destination is touched; but a source root that exists and cannot be
enumerated raises no error at all — the walk yields nothing, the total
count is zero, and the destination's run completes with zero files
processed, zero events and no recorded error. -/
theorem C8_scan_amended :
    (∀ dests : List Dest, start_copy false dests = none) ∧
    (∀ (exts : List String) (failEnv : List String → Bool)
        (files : List (String × FileMeta)) (subs : SrcForest) (fs0 : DstFS),
      count_total_files (SrcDir.node false files subs) = 0 ∧
      copy_recursively exts failEnv (SrcDir.node false files subs) fs0 =
        ⟨fs0, 0, []⟩) := by
  constructor
  · intro dests
    simp [start_copy]
  · intro exts failEnv files subs fs0
    have hw : walkDir [] (SrcDir.node false files subs) = [] := by
      simp [walkDir]
    constructor
    · rw [count_total_files, hw]
      rfl
    · rw [copy_recursively, hw, runWalk]

/-- Every `mkdir` event of a run targets a subdirectory path — never the
destination base `[]` itself. -/
theorem runWalk_mkdir_nonempty (exts : List String) (failEnv : List String → Bool)
    (total : Nat) :
    ∀ (w : List WalkEntry) (st : RunState) (p : List String),
      Event.mkdir p ∈ (runWalk exts failEnv total w st).trace →
        Event.mkdir p ∈ st.trace ∨ p ≠ [] := by
  intro w
  induction w with
  | nil => intro st p hp; exact Or.inl hp
  | cons e rest ih =>
    intro st p hp
    rw [runWalk] at hp
    rcases ih _ p hp with hmem | hne
    · unfold processOne at hmem
      obtain ⟨Δ, hΔ, hnm, _⟩ := runFiles_trace_shape exts failEnv total e.relRoot e.files
        (runMkdirs e.relRoot e.dirNames st)
      rw [hΔ, runMkdirs_trace] at hmem
      rcases List.mem_append.mp hmem with hmem | hmem
      · rcases List.mem_append.mp hmem with hmem | hmem
        · exact Or.inl hmem
        · obtain ⟨d, _, hd⟩ := List.mem_map.mp hmem
          refine Or.inr ?_
          have : p = e.relRoot ++ [d] := by
            cases hd
            rfl
          simp [this]
      · exact absurd hmem (hnm p)
    · exact Or.inr hne

/-- With no destination base and a source root without subdirectories,
every non-ignored top-level file fails to copy; the filesystem never
changes and nothing is copied or skipped. -/
theorem runFiles_nobase (exts : List String) (failEnv : List String → Bool)
    (total : Nat) :
    ∀ (files : List (String × FileMeta)) (st : RunState), st.fs = ⟨[], []⟩ →
      (runFiles exts failEnv total [] files st).fs = st.fs ∧
      copiedPathsOf (runFiles exts failEnv total [] files st).trace =
        copiedPathsOf st.trace ∧
      skippedPathsOf (runFiles exts failEnv total [] files st).trace =
        skippedPathsOf st.trace ∧
      errorPathsOf (runFiles exts failEnv total [] files st).trace =
        errorPathsOf st.trace ++
          (files.filter (fun fm => !is_ignored exts fm.1)).map (fun fm => [fm.1]) := by
  intro files
  induction files with
  | nil => intro st _; simp [runFiles]
  | cons fm rest ih =>
    intro st hfs
    obtain ⟨f, m⟩ := fm
    by_cases hig : is_ignored exts f = true
    · rw [runFiles, processFile_ignored exts failEnv total [] st f m hig]
      have h := ih { st with trace := st.trace ++ [.ignored ([] ++ [f])] } (by simpa using hfs)
      refine ⟨h.1, ?_, ?_, ?_⟩
      · rw [h.2.1]
        simp [copiedPathsOf_append, copiedPathsOf]
      · rw [h.2.2.1]
        simp [skippedPathsOf_append, skippedPathsOf]
      · rw [h.2.2.2]
        simp [errorPathsOf_append, errorPathsOf, hig]
    · rw [runFiles]
      have hig' : is_ignored exts f = false := Bool.not_eq_true _ ▸ hig
      have hstep : processFile exts failEnv total [] st (f, m) =
          { st with copied := st.copied + 1,
                    trace := st.trace ++ [.errorCopy [f], .progress (st.copied + 1) total] } := by
        have h1 : st.fs.lookup [f] = none := by rw [hfs]; rfl
        have h3 : st.fs.dirExists [] = false := by rw [hfs]; rfl
        simp [processFile, hig', h1, h3, needs_copy]
      rw [hstep]
      have h := ih { st with copied := st.copied + 1,
                             trace := st.trace ++ [.errorCopy [f], .progress (st.copied + 1) total] }
        (by simpa using hfs)
      refine ⟨h.1, ?_, ?_, ?_⟩
      · rw [h.2.1]
        simp [copiedPathsOf_append, copiedPathsOf]
      · rw [h.2.2.1]
        simp [skippedPathsOf_append, skippedPathsOf]
      · rw [h.2.2.2]
        simp [errorPathsOf_append, errorPathsOf, hig']

/-- Counterexample to claim C10: the destination base is absent at the
start, yet the top-level file copy succeeds — creating the subdirectory
`sub` with `parents=True` created the destination base implicitly before
the root directory's files were processed. -/
theorem C10_counterexample :
    Event.copied ["a.txt"] ∈
      (copy_recursively [] (fun _ => false)
        (SrcDir.node true [("a.txt", ⟨10, 0⟩)]
          (.cons "sub" (.node true [] .nil) .nil)) ⟨[], []⟩).trace ∧
    (⟨[], []⟩ : DstFS).dirExists [] = false := by
  decide

/-- Claim C10 as amended: `copy_recursively` never issues a directory
creation for the destination base itself (every `mkdir` targets a
non-empty relative path), but `parents=True` creates the base implicitly
whenever the source root has a subdirectory; when the destination base
does not exist at the start and the source root has no subdirectories,
every non-ignored top-level file's copy fails (recorded only as an error
log and a progress report — nothing is copied or skipped and the
destination stays empty) while the run still finishes and the
orchestrator reports the destination completed. -/
theorem C10_base_amended :
    (∀ (exts : List String) (failEnv : List String → Bool) (src : SrcDir)
        (fs0 : DstFS) (p : List String),
      Event.mkdir p ∈ (copy_recursively exts failEnv src fs0).trace → p ≠ []) ∧
    (∀ (exts : List String) (failEnv : List String → Bool)
        (files : List (String × FileMeta)),
      (copy_recursively exts failEnv (SrcDir.node true files .nil) ⟨[], []⟩).fs =
        ⟨[], []⟩ ∧
      copiedPathsOf
        (copy_recursively exts failEnv (SrcDir.node true files .nil) ⟨[], []⟩).trace = [] ∧
      skippedPathsOf
        (copy_recursively exts failEnv (SrcDir.node true files .nil) ⟨[], []⟩).trace = [] ∧
      errorPathsOf
        (copy_recursively exts failEnv (SrcDir.node true files .nil) ⟨[], []⟩).trace =
        (files.filter (fun fm => !is_ignored exts fm.1)).map (fun fm => [fm.1]) ∧
      (∀ (name htype : String) (me : MapEnv), ensure_path_mapped me htype = true →
        processDest ⟨name, htype, me, none, exts, failEnv,
            .node true files .nil, ⟨[], []⟩⟩ =
          (name, .completed
            (copy_recursively exts failEnv (.node true files .nil) ⟨[], []⟩)))) := by
  constructor
  · intro exts failEnv src fs0 p hp
    rcases runWalk_mkdir_nonempty exts failEnv (count_total_files src)
      (walkDir [] src) ⟨fs0, 0, []⟩ p hp with hmem | hne
    · simp at hmem
    · exact hne
  · intro exts failEnv files
    have hw : walkDir [] (SrcDir.node true files .nil) = [⟨[], [], files⟩] := by
      simp [walkDir, walkForest, forestNames]
    have hrun : copy_recursively exts failEnv (SrcDir.node true files .nil) ⟨[], []⟩ =
        runFiles exts failEnv (count_total_files (SrcDir.node true files .nil)) []
          files ⟨⟨[], []⟩, 0, []⟩ := by
      rw [copy_recursively, hw, runWalk, runWalk]
      unfold processOne runMkdirs
      rfl
    have h := runFiles_nobase exts failEnv
      (count_total_files (SrcDir.node true files .nil)) files ⟨⟨[], []⟩, 0, []⟩ rfl
    refine ⟨?_, ?_, ?_, ?_, ?_⟩
    · rw [hrun]; exact h.1
    · rw [hrun]; simpa [copiedPathsOf] using h.2.1
    · rw [hrun]; simpa [skippedPathsOf] using h.2.2.1
    · rw [hrun]; simpa [errorPathsOf] using h.2.2.2
    · intro name htype me hm
      exact processDest_ok _ rfl hm

/-- Witness for C10 (amended): in a run that does create directories, the
created path `["sub"]` is indeed not the base. -/
theorem C10_base_amended_witness :
    (["sub"] : List String) ≠ [] :=
  C10_base_amended.1 [] (fun _ => false)
    (SrcDir.node true [] (.cons "sub" (.node true [] .nil) .nil)) ⟨[[]], []⟩ ["sub"]
    (by decide)

/-- Growing the set of already-created directories preserves
`GoodWalk`. -/
theorem GoodWalk.mono :
    ∀ {created created' : List (List String)} {w : List WalkEntry},
      GoodWalk created w → created ⊆ created' → GoodWalk created' w := by
  intro created created' w h
  induction h generalizing created' with
  | nil => intro _; exact GoodWalk.nil _
  | cons c e w hhead _ ih =>
    intro hsub
    refine GoodWalk.cons _ _ _ ?_ (ih ?_)
    · rcases hhead with h | h
      · exact Or.inl h
      · exact Or.inr (hsub h)
    · intro a ha
      rcases List.mem_append.mp ha with ha | ha
      · exact List.mem_append.mpr (Or.inl (hsub ha))
      · exact List.mem_append.mpr (Or.inr ha)

/-- `GoodWalk` composes across concatenation when the second part may
rely on everything the first part creates. -/
theorem goodWalk_append :
    ∀ {created : List (List String)} {w₁ w₂ : List WalkEntry},
      GoodWalk created w₁ → GoodWalk (created ++ allMkdirs w₁) w₂ →
      GoodWalk created (w₁ ++ w₂) := by
  intro created w₁ w₂ h
  induction h with
  | nil =>
    intro h₂
    simpa using h₂.mono (by simp [allMkdirs])
  | cons c e w hhead _ ih =>
    intro h₂
    refine GoodWalk.cons _ _ _ hhead (ih ?_)
    have : allMkdirs (e :: w) =
        e.dirNames.map (fun d => e.relRoot ++ [d]) ++ allMkdirs w := by
      simp [allMkdirs]
    rw [this, ← List.append_assoc] at h₂
    exact h₂

mutual
/-- The walk of a directory whose own destination directory is available
(or is the base) only ever visits directories created earlier in the
walk. -/
theorem walkDir_good (d : SrcDir) :
    ∀ (relRoot : List String) (created : List (List String)),
      (relRoot = [] ∨ relRoot ∈ created) → GoodWalk created (walkDir relRoot d) := by
  cases d with
  | node readable files subs =>
    intro relRoot created h
    by_cases hr : readable
    · rw [show walkDir relRoot (SrcDir.node readable files subs) =
          ⟨relRoot, forestNames subs, files⟩ :: walkForest relRoot subs by
        simp [walkDir, hr]]
      refine GoodWalk.cons _ _ _ h (walkForest_good subs relRoot _ ?_)
      intro n hn
      exact List.mem_append.mpr (Or.inr (List.mem_map.mpr ⟨n, hn, rfl⟩))
    · rw [show walkDir relRoot (SrcDir.node readable files subs) = [] by
        simp [walkDir, hr]]
      exact GoodWalk.nil _

/-- The walk of a subdirectory listing whose destination directories have
all been created already only ever visits directories created earlier. -/
theorem walkForest_good (subs : SrcForest) :
    ∀ (relRoot : List String) (created : List (List String)),
      (∀ n ∈ forestNames subs, relRoot ++ [n] ∈ created) →
      GoodWalk created (walkForest relRoot subs) := by
  cases subs with
  | nil =>
    intro relRoot created _
    rw [show walkForest relRoot SrcForest.nil = [] from rfl]
    exact GoodWalk.nil _
  | cons n d rest =>
    intro relRoot created h
    rw [show walkForest relRoot (SrcForest.cons n d rest) =
        walkDir (relRoot ++ [n]) d ++ walkForest relRoot rest from rfl]
    refine goodWalk_append (walkDir_good d (relRoot ++ [n]) created ?_)
      ((walkForest_good rest relRoot created ?_).mono ?_)
    · exact Or.inr (h n (by simp [forestNames]))
    · intro n' hn'
      exact h n' (by simp [forestNames, hn'])
    · intro a ha
      exact List.mem_append.mpr (Or.inl ha)
end

/-- One walk step only ever adds destination directories. -/
theorem processOne_dirs_mono (exts : List String) (failEnv : List String → Bool)
    (total : Nat) (e : WalkEntry) (st : RunState) (p : List String)
    (h : memPath st.fs.dirs p = true) :
    memPath (processOne exts failEnv total e st).fs.dirs p = true := by
  unfold processOne
  obtain ⟨_, _, _, hdirs⟩ := runFiles_trace_shape exts failEnv total e.relRoot e.files
    (runMkdirs e.relRoot e.dirNames st)
  rw [hdirs]
  exact runMkdirs_dirs_mono _ _ _ _ h

/-- The walk loop only ever adds destination directories. -/
theorem runWalk_dirs_mono (exts : List String) (failEnv : List String → Bool)
    (total : Nat) :
    ∀ (w : List WalkEntry) (st : RunState) (p : List String),
      memPath st.fs.dirs p = true →
      memPath (runWalk exts failEnv total w st).fs.dirs p = true := by
  intro w
  induction w with
  | nil => intro st p h; exact h
  | cons e rest ih =>
    intro st p h
    rw [runWalk]
    exact ih _ p (processOne_dirs_mono exts failEnv total e st p h)

/-- Every subdirectory listed anywhere in the walk exists on the
destination once the walk loop finishes. -/
theorem runWalk_mkdirs_exist (exts : List String) (failEnv : List String → Bool)
    (total : Nat) :
    ∀ (w : List WalkEntry) (st : RunState) (p : List String), p ∈ allMkdirs w →
      memPath (runWalk exts failEnv total w st).fs.dirs p = true := by
  intro w
  induction w with
  | nil => intro st p hp; simp [allMkdirs] at hp
  | cons e rest ih =>
    intro st p hp
    rw [runWalk]
    have hsplit : allMkdirs (e :: rest) =
        e.dirNames.map (fun d => e.relRoot ++ [d]) ++ allMkdirs rest := by
      simp [allMkdirs]
    rw [hsplit] at hp
    rcases List.mem_append.mp hp with hp | hp
    · obtain ⟨d, hd, rfl⟩ := List.mem_map.mp hp
      refine runWalk_dirs_mono exts failEnv total rest _ _ ?_
      unfold processOne
      obtain ⟨_, _, _, hdirs⟩ := runFiles_trace_shape exts failEnv total e.relRoot
        e.files (runMkdirs e.relRoot e.dirNames st)
      rw [hdirs]
      exact runMkdirs_dirs_new _ _ _ _ hd
    · exact ih _ p hp

/-- If a non-ignored file's directory exists and the environment does not
fail the copy, the step records no error and keeps the directory set. -/
theorem processFile_no_error (exts : List String) (failEnv : List String → Bool)
    (total : Nat) (relRoot : List String) (st : RunState) (f : String) (m : FileMeta)
    (hdir : st.fs.dirExists relRoot = true) (hfe : failEnv (relRoot ++ [f]) = false) :
    errorPathsOf (processFile exts failEnv total relRoot st (f, m)).trace =
      errorPathsOf st.trace ∧
    (processFile exts failEnv total relRoot st (f, m)).fs.dirs = st.fs.dirs := by
  by_cases hig : is_ignored exts f = true
  · rw [processFile_ignored exts failEnv total relRoot st f m hig]
    simp [errorPathsOf_append, errorPathsOf]
  · simp only [processFile, Bool.not_eq_true _ ▸ hig, Bool.false_eq_true, if_false]
    by_cases hc : needs_copy m (st.fs.lookup (relRoot ++ [f])) = true
    · simp only [hc, if_true, hdir, hfe]
      simp [errorPathsOf_append, errorPathsOf, DstFS.setFile]
    · simp only [Bool.not_eq_true] at hc
      simp only [hc, Bool.false_eq_true, if_false]
      simp [errorPathsOf_append, errorPathsOf]

/-- Any single file step either records no error or records one error at
its own path, and never changes the directory set. -/
theorem processFile_error_cases (exts : List String) (failEnv : List String → Bool)
    (total : Nat) (relRoot : List String) (st : RunState) (f : String) (m : FileMeta) :
    (processFile exts failEnv total relRoot st (f, m)).fs.dirs = st.fs.dirs ∧
    (errorPathsOf (processFile exts failEnv total relRoot st (f, m)).trace =
        errorPathsOf st.trace ∨
      errorPathsOf (processFile exts failEnv total relRoot st (f, m)).trace =
        errorPathsOf st.trace ++ [relRoot ++ [f]]) := by
  by_cases hig : is_ignored exts f = true
  · rw [processFile_ignored exts failEnv total relRoot st f m hig]
    refine ⟨rfl, Or.inl ?_⟩
    simp [errorPathsOf_append, errorPathsOf]
  · simp only [processFile, Bool.not_eq_true _ ▸ hig, Bool.false_eq_true, if_false]
    by_cases hc : needs_copy m (st.fs.lookup (relRoot ++ [f])) = true
    · simp only [hc, if_true]
      by_cases hd : (st.fs.dirExists relRoot && !failEnv (relRoot ++ [f])) = true
      · simp only [hd, if_true]
        refine ⟨by trivial, Or.inl ?_⟩
        simp [errorPathsOf_append, errorPathsOf]
      · simp only [Bool.not_eq_true] at hd
        simp only [hd, Bool.false_eq_true, if_false]
        refine ⟨by trivial, Or.inr ?_⟩
        simp [errorPathsOf_append, errorPathsOf]
    · simp only [Bool.not_eq_true] at hc
      simp only [hc, Bool.false_eq_true, if_false]
      refine ⟨by trivial, Or.inl ?_⟩
      simp [errorPathsOf_append, errorPathsOf]

/-- With no environmental failures, the file loop of a directory whose
destination directory exists (or which is the base itself) only records
errors at top-level paths, and keeps the directory set. -/
theorem runFiles_errors (exts : List String) (failEnv : List String → Bool)
    (total : Nat) (relRoot : List String) (hfe : ∀ q, failEnv q = false) :
    ∀ (files : List (String × FileMeta)) (st : RunState),
      (relRoot = [] ∨ st.fs.dirExists relRoot = true) →
      (∀ p, p ∈ errorPathsOf (runFiles exts failEnv total relRoot files st).trace →
        p ∈ errorPathsOf st.trace ∨ p.length = 1) ∧
      (runFiles exts failEnv total relRoot files st).fs.dirs = st.fs.dirs := by
  intro files
  induction files with
  | nil => intro st _; exact ⟨fun p hp => Or.inl hp, rfl⟩
  | cons fm rest ih =>
    intro st hcond
    obtain ⟨f, m⟩ := fm
    rw [runFiles]
    rcases hcond with hroot | hdir
    · subst hroot
      obtain ⟨hdirs, herr⟩ := processFile_error_cases exts failEnv total [] st f m
      obtain ⟨ihe, ihd⟩ := ih (processFile exts failEnv total [] st (f, m)) (Or.inl rfl)
      refine ⟨?_, ihd.trans hdirs⟩
      intro p hp
      rcases ihe p hp with hp' | hlen
      · rcases herr with he | he
        · rw [he] at hp'
          exact Or.inl hp'
        · rw [he] at hp'
          rcases List.mem_append.mp hp' with hp'' | hp''
          · exact Or.inl hp''
          · simp at hp''
            subst hp''
            exact Or.inr rfl
      · exact Or.inr hlen
    · obtain ⟨herr, hdirs⟩ := processFile_no_error exts failEnv total relRoot st f m
        hdir (hfe _)
      obtain ⟨ihe, ihd⟩ := ih (processFile exts failEnv total relRoot st (f, m))
        (Or.inr (by rw [DstFS.dirExists, hdirs]; exact hdir))
      refine ⟨?_, ihd.trans hdirs⟩
      intro p hp
      rcases ihe p hp with hp' | hlen
      · rw [herr] at hp'
        exact Or.inl hp'
      · exact Or.inr hlen

/-- With no environmental failures, one walk step whose own directory is
available only records errors at top-level paths. -/
theorem processOne_errors (exts : List String) (failEnv : List String → Bool)
    (total : Nat) (hfe : ∀ q, failEnv q = false) (e : WalkEntry) (st : RunState)
    (hcond : e.relRoot = [] ∨ memPath st.fs.dirs e.relRoot = true) :
    ∀ p, p ∈ errorPathsOf (processOne exts failEnv total e st).trace →
      p ∈ errorPathsOf st.trace ∨ p.length = 1 := by
  intro p hp
  unfold processOne at hp
  have hcond' : e.relRoot = [] ∨
      (runMkdirs e.relRoot e.dirNames st).fs.dirExists e.relRoot = true := by
    rcases hcond with h | h
    · exact Or.inl h
    · exact Or.inr (runMkdirs_dirs_mono _ _ _ _ h)
  obtain ⟨he, _⟩ := runFiles_errors exts failEnv total e.relRoot hfe e.files
    (runMkdirs e.relRoot e.dirNames st) hcond'
  rcases he p hp with hp' | hlen
  · rw [runMkdirs_trace, errorPathsOf_append,
      (silent_mkdir_map e.relRoot e.dirNames).2.2.1, List.append_nil] at hp'
    exact Or.inl hp'
  · exact Or.inr hlen

/-- With no environmental failures, a walk in which every visited
directory was created by an earlier step (or is the base) only records
errors at top-level paths: deeper files never fail for a missing parent
directory. -/
theorem runWalk_errors (exts : List String) (failEnv : List String → Bool)
    (total : Nat) (hfe : ∀ q, failEnv q = false) :
    ∀ (w : List WalkEntry) (created : List (List String)) (st : RunState),
      GoodWalk created w →
      (∀ p ∈ created, memPath st.fs.dirs p = true) →
      ∀ p, p ∈ errorPathsOf (runWalk exts failEnv total w st).trace →
        p ∈ errorPathsOf st.trace ∨ p.length = 1 := by
  intro w
  induction w with
  | nil => intro created st _ _ p hp; exact Or.inl hp
  | cons e rest ih =>
    intro created st hgw hcr p hp
    cases hgw with
    | cons _ _ _ hhead htail =>
      rw [runWalk] at hp
      have hnext : ∀ q ∈ created ++ e.dirNames.map (fun d => e.relRoot ++ [d]),
          memPath (processOne exts failEnv total e st).fs.dirs q = true := by
        intro q hq
        rcases List.mem_append.mp hq with hq | hq
        · exact processOne_dirs_mono exts failEnv total e st q (hcr q hq)
        · obtain ⟨d, hd, rfl⟩ := List.mem_map.mp hq
          unfold processOne
          obtain ⟨_, _, _, hdirs⟩ := runFiles_trace_shape exts failEnv total e.relRoot
            e.files (runMkdirs e.relRoot e.dirNames st)
          rw [hdirs]
          exact runMkdirs_dirs_new _ _ _ _ hd
      rcases ih _ _ htail hnext p hp with hp' | hlen
      · refine processOne_errors exts failEnv total hfe e st ?_ p hp'
        rcases hhead with h | h
        · exact Or.inl h
        · exact Or.inr (hcr _ h)
      · exact Or.inr hlen

/-- Claim C9: each visited source directory's subdirectories are created
immediately upon the visit and before any of its files are processed
(the step's trace is the `mkdir` events followed by mkdir-free file
events); every subdirectory listed anywhere in the walk — in particular
an empty one — exists on the destination after the run; and
consequently, absent environmental failures, no file below a
subdirectory ever fails to copy for want of its parent directory (every
recorded error path is a top-level one). -/
theorem C9_directory_creation :
    (∀ (exts : List String) (failEnv : List String → Bool) (total : Nat)
        (e : WalkEntry) (st : RunState),
      ∃ ft, (processOne exts failEnv total e st).trace =
          st.trace ++ e.dirNames.map (fun d => Event.mkdir (e.relRoot ++ [d])) ++ ft ∧
        ∀ p, Event.mkdir p ∉ ft) ∧
    (∀ (exts : List String) (failEnv : List String → Bool) (src : SrcDir)
        (fs0 : DstFS) (p : List String), p ∈ allMkdirs (walkDir [] src) →
      (copy_recursively exts failEnv src fs0).fs.dirExists p = true) ∧
    (∀ (exts : List String) (failEnv : List String → Bool) (src : SrcDir)
        (fs0 : DstFS), (∀ q, failEnv q = false) →
      ∀ p, p ∈ errorPathsOf (copy_recursively exts failEnv src fs0).trace →
        p.length = 1) := by
  refine ⟨?_, ?_, ?_⟩
  · intro exts failEnv total e st
    obtain ⟨Δ, hΔ, hnm, _⟩ := runFiles_trace_shape exts failEnv total e.relRoot e.files
      (runMkdirs e.relRoot e.dirNames st)
    refine ⟨Δ, ?_, hnm⟩
    unfold processOne
    rw [hΔ, runMkdirs_trace]
  · intro exts failEnv src fs0 p hp
    rw [copy_recursively]
    exact runWalk_mkdirs_exist exts failEnv (count_total_files src) _ _ p hp
  · intro exts failEnv src fs0 hfe p hp
    have h := runWalk_errors exts failEnv (count_total_files src) hfe (walkDir [] src)
      [] ⟨fs0, 0, []⟩ (walkDir_good src [] [] (Or.inl rfl))
      (by intro q hq; cases hq) p hp
    rcases h with h | h
    · simp [errorPathsOf] at h
    · exact h

/-- Witness for C9: a source with a single empty subdirectory `sub`
leaves `sub` present on the destination after the run. -/
theorem C9_directory_creation_witness :
    (copy_recursively [] (fun _ => false)
      (SrcDir.node true [] (.cons "sub" (.node true [] .nil) .nil))
      ⟨[[]], []⟩).fs.dirExists ["sub"] = true :=
  C9_directory_creation.2.1 [] (fun _ => false)
    (SrcDir.node true [] (.cons "sub" (.node true [] .nil) .nil)) ⟨[[]], []⟩ ["sub"]
    (by decide)

/-- The three possible outcomes of one non-ignored file step: skip,
successful copy, or failed copy. -/
theorem processFile_cases (exts : List String) (failEnv : List String → Bool)
    (total : Nat) (relRoot : List String) (st : RunState) (f : String) (m : FileMeta)
    (hig : is_ignored exts f = false) :
    (needs_copy m (st.fs.lookup (relRoot ++ [f])) = false ∧
      processFile exts failEnv total relRoot st (f, m) =
        { st with copied := st.copied + 1,
                  trace := st.trace ++ [.skipped (relRoot ++ [f]),
                                        .progress (st.copied + 1) total] }) ∨
    (needs_copy m (st.fs.lookup (relRoot ++ [f])) = true ∧
      (st.fs.dirExists relRoot && !failEnv (relRoot ++ [f])) = true ∧
      processFile exts failEnv total relRoot st (f, m) =
        { st with fs := st.fs.setFile (relRoot ++ [f]) m,
                  copied := st.copied + 1,
                  trace := st.trace ++ [.copied (relRoot ++ [f]),
                                        .progress (st.copied + 1) total] }) ∨
    (needs_copy m (st.fs.lookup (relRoot ++ [f])) = true ∧
      (st.fs.dirExists relRoot && !failEnv (relRoot ++ [f])) = false ∧
      processFile exts failEnv total relRoot st (f, m) =
        { st with copied := st.copied + 1,
                  trace := st.trace ++ [.errorCopy (relRoot ++ [f]),
                                        .progress (st.copied + 1) total] }) := by
  simp only [processFile, hig, Bool.false_eq_true, if_false]
  by_cases hc : needs_copy m (st.fs.lookup (relRoot ++ [f])) = true
  · simp only [hc, if_true]
    by_cases hd : (st.fs.dirExists relRoot && !failEnv (relRoot ++ [f])) = true
    · simp only [hd, if_true]
      exact Or.inr (Or.inl ⟨trivial, trivial, trivial⟩)
    · simp only [Bool.not_eq_true] at hd
      simp only [hd, Bool.false_eq_true, if_false]
      exact Or.inr (Or.inr ⟨trivial, trivial, trivial⟩)
  · simp only [Bool.not_eq_true] at hc
    simp only [hc, Bool.false_eq_true, if_false]
    exact Or.inl ⟨trivial, trivial⟩

/-- A classifier skip means the destination file was present and
identical. -/
theorem identical_of_not_needs_copy (m : FileMeta) (o : Option FileMeta)
    (h : needs_copy m o = false) : files_are_identical m o = true := by
  simp only [needs_copy, Bool.or_eq_false_iff, Bool.not_eq_true'] at h
  simpa using h.2

/-- A skip never happens against a freshly copied identical file in
vain: a file is identical to its own copied metadata. -/
theorem identical_self (m : FileMeta) : files_are_identical m (some m) = true := by
  simp [files_are_identical]

/-- A file step can only change the destination file at its own path. -/
theorem processFile_lookup_other (exts : List String) (failEnv : List String → Bool)
    (total : Nat) (relRoot : List String) (st : RunState) (f : String) (m : FileMeta)
    (p : List String) (h : relRoot ++ [f] ≠ p) :
    (processFile exts failEnv total relRoot st (f, m)).fs.lookup p = st.fs.lookup p := by
  by_cases hig : is_ignored exts f = true
  · rw [processFile_ignored exts failEnv total relRoot st f m hig]
  · rcases processFile_cases exts failEnv total relRoot st f m
        (Bool.not_eq_true _ ▸ hig) with ⟨_, he⟩ | ⟨_, _, he⟩ | ⟨_, _, he⟩ <;> rw [he]
    simp [DstFS.lookup, DstFS.setFile, lookupFile, h]

/-- The file loop can only change destination files at its own paths. -/
theorem runFiles_lookup_other (exts : List String) (failEnv : List String → Bool)
    (total : Nat) (relRoot : List String) :
    ∀ (files : List (String × FileMeta)) (st : RunState) (p : List String),
      (∀ fm ∈ files, relRoot ++ [fm.1] ≠ p) →
      (runFiles exts failEnv total relRoot files st).fs.lookup p = st.fs.lookup p := by
  intro files
  induction files with
  | nil => intro st p _; rfl
  | cons fm rest ih =>
    intro st p h
    rw [runFiles]
    rw [ih _ p (fun fm' hm => h fm' (List.mem_cons_of_mem _ hm))]
    exact processFile_lookup_other exts failEnv total relRoot st fm.1 fm.2 p
      (h fm (List.mem_cons_self _ _))

/-- The walk loop can only change destination files at the walk's own
file paths. -/
theorem runWalk_lookup_other (exts : List String) (failEnv : List String → Bool)
    (total : Nat) :
    ∀ (w : List WalkEntry) (st : RunState) (p : List String), p ∉ filePathsW w →
      (runWalk exts failEnv total w st).fs.lookup p = st.fs.lookup p := by
  intro w
  induction w with
  | nil => intro st p _; rfl
  | cons e rest ih =>
    intro st p hp
    have hsplit : filePathsW (e :: rest) =
        e.files.map (fun fm => e.relRoot ++ [fm.1]) ++ filePathsW rest := by
      simp [filePathsW]
    rw [hsplit] at hp
    rw [runWalk, ih _ p (fun hm => hp (List.mem_append.mpr (Or.inr hm)))]
    unfold processOne
    rw [runFiles_lookup_other exts failEnv total e.relRoot e.files _ p ?_]
    · have : (runMkdirs e.relRoot e.dirNames st).fs.files = st.fs.files :=
        (runMkdirs_state e.relRoot e.dirNames st).2
      simp [DstFS.lookup, this]
    · intro fm hm heq
      exact hp (List.mem_append.mpr (Or.inl (List.mem_map.mpr ⟨fm, hm, heq⟩)))

/-- The walk loop's trace extends the incoming trace. -/
theorem runWalk_trace_shape (exts : List String) (failEnv : List String → Bool)
    (total : Nat) :
    ∀ (w : List WalkEntry) (st : RunState),
      ∃ Δ, (runWalk exts failEnv total w st).trace = st.trace ++ Δ := by
  intro w
  induction w with
  | nil => intro st; exact ⟨[], by simp [runWalk]⟩
  | cons e rest ih =>
    intro st
    obtain ⟨Δ₂, h₂⟩ := ih (processOne exts failEnv total e st)
    obtain ⟨Δ₁, h₁, _, _⟩ := runFiles_trace_shape exts failEnv total e.relRoot e.files
      (runMkdirs e.relRoot e.dirNames st)
    refine ⟨e.dirNames.map (fun d => Event.mkdir (e.relRoot ++ [d])) ++ Δ₁ ++ Δ₂, ?_⟩
    rw [runWalk, h₂]
    unfold processOne
    rw [h₁, runMkdirs_trace]
    simp [List.append_assoc]

/-- After an error-free file loop over distinctly named files, every
non-ignored file of the directory is identical (by the classifier) to
its destination counterpart. -/
theorem runFiles_establishes (exts : List String) (failEnv : List String → Bool)
    (total : Nat) (relRoot : List String) :
    ∀ (files : List (String × FileMeta)) (st : RunState),
      errorPathsOf (runFiles exts failEnv total relRoot files st).trace =
        errorPathsOf st.trace →
      (files.map (fun fm => relRoot ++ [fm.1])).Nodup →
      ∀ fm ∈ files, is_ignored exts fm.1 = false →
        files_are_identical fm.2
          ((runFiles exts failEnv total relRoot files st).fs.lookup
            (relRoot ++ [fm.1])) = true := by
  intro files
  induction files with
  | nil => intro st _ _ fm hfm; cases hfm
  | cons fm₀ rest ih =>
    intro st herr hnd fm hfm hig
    obtain ⟨f₀, m₀⟩ := fm₀
    simp only [List.map_cons] at hnd
    rw [runFiles] at herr ⊢
    obtain ⟨Δ, hΔ, _, _⟩ := runFiles_trace_shape exts failEnv total relRoot rest
      (processFile exts failEnv total relRoot st (f₀, m₀))
    obtain ⟨_, hec⟩ := processFile_error_cases exts failEnv total relRoot st f₀ m₀
    have herr₀ : errorPathsOf (processFile exts failEnv total relRoot st (f₀, m₀)).trace =
        errorPathsOf st.trace := by
      rcases hec with he | he
      · exact he
      · exfalso
        rw [hΔ, errorPathsOf_append, he] at herr
        have hl := congrArg List.length herr
        simp only [List.length_append, List.length_cons, List.length_nil] at hl
        omega
    have herrR : errorPathsOf (runFiles exts failEnv total relRoot rest
        (processFile exts failEnv total relRoot st (f₀, m₀))).trace =
        errorPathsOf (processFile exts failEnv total relRoot st (f₀, m₀)).trace := by
      rw [hΔ, errorPathsOf_append, herr₀] at herr ⊢
      have hl := congrArg List.length herr
      simp only [List.length_append] at hl
      have : errorPathsOf Δ = [] := List.eq_nil_of_length_eq_zero (by omega)
      rw [this, List.append_nil]
    rcases List.mem_cons.mp hfm with heq | hmem
    · subst heq
      have hpne : ∀ fm' ∈ rest, relRoot ++ [fm'.1] ≠ relRoot ++ [f₀] := by
        intro fm' hm' hcontra
        exact (List.nodup_cons.mp hnd).1 (List.mem_map.mpr ⟨fm', hm', hcontra⟩)
      rw [runFiles_lookup_other exts failEnv total relRoot rest
        (processFile exts failEnv total relRoot st (f₀, m₀)) (relRoot ++ [f₀]) hpne]
      rcases processFile_cases exts failEnv total relRoot st f₀ m₀ hig with
        ⟨hnc, heq₁⟩ | ⟨_, _, heq₁⟩ | ⟨_, _, heq₁⟩
      · rw [heq₁]
        exact identical_of_not_needs_copy _ _ hnc
      · rw [heq₁]
        simp [DstFS.lookup, DstFS.setFile, lookupFile, identical_self,
          files_are_identical]
      · exfalso
        rw [heq₁] at herr₀
        simp only [errorPathsOf_append, errorPathsOf, List.filterMap_cons,
          List.filterMap_nil] at herr₀
        have hl := congrArg List.length herr₀
        simp only [List.length_append] at hl
        simp at hl
    · exact ih _ herrR (List.nodup_cons.mp hnd).2 fm hmem hig

/-- After an error-free walk over distinct file paths, every non-ignored
file of the source is identical (by the classifier) to its destination
counterpart. -/
theorem runWalk_establishes (exts : List String) (failEnv : List String → Bool)
    (total : Nat) :
    ∀ (w : List WalkEntry) (st : RunState),
      errorPathsOf (runWalk exts failEnv total w st).trace = errorPathsOf st.trace →
      (filePathsW w).Nodup →
      ∀ pm ∈ fileEntriesNI exts w,
        files_are_identical pm.2
          ((runWalk exts failEnv total w st).fs.lookup pm.1) = true := by
  intro w
  induction w with
  | nil => intro st _ _ pm hpm; simp [fileEntriesNI] at hpm
  | cons e rest ih =>
    intro st herr hnd pm hpm
    rw [runWalk] at herr ⊢
    obtain ⟨Δ₂, h₂⟩ := runWalk_trace_shape exts failEnv total rest
      (processOne exts failEnv total e st)
    obtain ⟨Δ₁, h₁, _, _⟩ := runFiles_trace_shape exts failEnv total e.relRoot e.files
      (runMkdirs e.relRoot e.dirNames st)
    have hPO : (processOne exts failEnv total e st).trace =
        st.trace ++ (e.dirNames.map (fun d => Event.mkdir (e.relRoot ++ [d])) ++ Δ₁) := by
      unfold processOne
      rw [h₁, runMkdirs_trace, List.append_assoc]
    have herrPO : errorPathsOf (processOne exts failEnv total e st).trace =
        errorPathsOf st.trace ∧
        errorPathsOf (runWalk exts failEnv total rest
          (processOne exts failEnv total e st)).trace =
          errorPathsOf (processOne exts failEnv total e st).trace := by
      rw [h₂, errorPathsOf_append, hPO, errorPathsOf_append] at herr
      have hl := congrArg List.length herr
      simp only [List.length_append] at hl
      have hz₁ : errorPathsOf (e.dirNames.map (fun d =>
          Event.mkdir (e.relRoot ++ [d])) ++ Δ₁) = [] :=
        List.eq_nil_of_length_eq_zero (by omega)
      have hz₂ : errorPathsOf Δ₂ = [] :=
        List.eq_nil_of_length_eq_zero (by omega)
      constructor
      · rw [hPO, errorPathsOf_append, hz₁, List.append_nil]
      · rw [h₂, errorPathsOf_append, hz₂, List.append_nil]
    have hsplitFE : fileEntriesNI exts (e :: rest) =
        (e.files.filter (fun fm => !is_ignored exts fm.1)).map
          (fun fm => (e.relRoot ++ [fm.1], fm.2)) ++ fileEntriesNI exts rest := by
      simp [fileEntriesNI]
    have hsplitFP : filePathsW (e :: rest) =
        e.files.map (fun fm => e.relRoot ++ [fm.1]) ++ filePathsW rest := by
      simp [filePathsW]
    rw [hsplitFE] at hpm
    rw [hsplitFP] at hnd
    obtain ⟨hnd₁, hnd₂, hdisj⟩ := List.nodup_append.mp hnd
    rcases List.mem_append.mp hpm with hpm | hpm
    · obtain ⟨fm, hfm, rfl⟩ := List.mem_map.mp hpm
      obtain ⟨hfmm, hfmi⟩ := List.mem_filter.mp hfm
      have hestab : files_are_identical fm.2
          ((processOne exts failEnv total e st).fs.lookup (e.relRoot ++ [fm.1])) =
            true := by
        have hmk : errorPathsOf (runMkdirs e.relRoot e.dirNames st).trace =
            errorPathsOf st.trace := by
          rw [runMkdirs_trace, errorPathsOf_append,
            (silent_mkdir_map e.relRoot e.dirNames).2.2.1, List.append_nil]
        have h := herrPO.1
        unfold processOne at h ⊢
        refine runFiles_establishes exts failEnv total e.relRoot e.files
          (runMkdirs e.relRoot e.dirNames st) ?_ hnd₁ fm hfmm ?_
        · rw [hmk]
          exact h
        · simpa using hfmi
      dsimp only
      rw [runWalk_lookup_other exts failEnv total rest _ _
        (hdisj (List.mem_map.mpr ⟨fm, hfmm, rfl⟩))]
      exact hestab
    · exact ih _ herrPO.2 hnd₂ pm hpm

/-- When every non-ignored file of a directory is already identical on
the destination, the file loop copies nothing, errors on nothing and
leaves the destination files untouched. -/
theorem runFiles_all_identical (exts : List String) (failEnv : List String → Bool)
    (total : Nat) (relRoot : List String) :
    ∀ (files : List (String × FileMeta)) (st : RunState),
      (∀ fm ∈ files, is_ignored exts fm.1 = false →
        files_are_identical fm.2 (st.fs.lookup (relRoot ++ [fm.1])) = true) →
      (runFiles exts failEnv total relRoot files st).fs.files = st.fs.files ∧
      copiedPathsOf (runFiles exts failEnv total relRoot files st).trace =
        copiedPathsOf st.trace ∧
      errorPathsOf (runFiles exts failEnv total relRoot files st).trace =
        errorPathsOf st.trace := by
  intro files
  induction files with
  | nil => intro st _; exact ⟨rfl, rfl, rfl⟩
  | cons fm₀ rest ih =>
    intro st hid
    obtain ⟨f₀, m₀⟩ := fm₀
    rw [runFiles]
    by_cases hig : is_ignored exts f₀ = true
    · rw [processFile_ignored exts failEnv total relRoot st f₀ m₀ hig]
      obtain ⟨h1, h2, h3⟩ := ih { st with trace := st.trace ++ [.ignored (relRoot ++ [f₀])] }
        (fun fm hm hig' => hid fm (List.mem_cons_of_mem _ hm) hig')
      refine ⟨h1, ?_, ?_⟩
      · rw [h2]
        simp [copiedPathsOf_append, copiedPathsOf]
      · rw [h3]
        simp [errorPathsOf_append, errorPathsOf]
    · have hig' : is_ignored exts f₀ = false := Bool.not_eq_true _ ▸ hig
      have hidh := hid (f₀, m₀) (List.mem_cons_self _ _) hig'
      have hnc : needs_copy m₀ (st.fs.lookup (relRoot ++ [f₀])) = false := by
        cases ho : st.fs.lookup (relRoot ++ [f₀]) with
        | none => rw [ho] at hidh; simp [files_are_identical] at hidh
        | some d =>
          rw [ho] at hidh
          simp [needs_copy, hidh]
      rcases processFile_cases exts failEnv total relRoot st f₀ m₀ hig' with
        ⟨_, heq₁⟩ | ⟨hnc', _, _⟩ | ⟨hnc', _, _⟩
      · obtain ⟨h1, h2, h3⟩ := ih (processFile exts failEnv total relRoot st (f₀, m₀))
          (by
            intro fm hm hig''
            rw [heq₁]
            exact hid fm (List.mem_cons_of_mem _ hm) hig'')
        rw [heq₁] at h1 h2 h3 ⊢
        refine ⟨h1, ?_, ?_⟩
        · rw [h2]
          simp [copiedPathsOf_append, copiedPathsOf]
        · rw [h3]
          simp [errorPathsOf_append, errorPathsOf]
      · rw [hnc] at hnc'
        exact Bool.noConfusion hnc'
      · rw [hnc] at hnc'
        exact Bool.noConfusion hnc'

/-- When every non-ignored source file is already identical on the
destination, the whole walk loop copies nothing and errors on nothing. -/
theorem runWalk_all_identical (exts : List String) (failEnv : List String → Bool)
    (total : Nat) :
    ∀ (w : List WalkEntry) (st : RunState),
      (∀ pm ∈ fileEntriesNI exts w,
        files_are_identical pm.2 (st.fs.lookup pm.1) = true) →
      (runWalk exts failEnv total w st).fs.files = st.fs.files ∧
      copiedPathsOf (runWalk exts failEnv total w st).trace =
        copiedPathsOf st.trace ∧
      errorPathsOf (runWalk exts failEnv total w st).trace =
        errorPathsOf st.trace := by
  intro w
  induction w with
  | nil => intro st _; exact ⟨rfl, rfl, rfl⟩
  | cons e rest ih =>
    intro st hid
    rw [runWalk]
    have hsplitFE : fileEntriesNI exts (e :: rest) =
        (e.files.filter (fun fm => !is_ignored exts fm.1)).map
          (fun fm => (e.relRoot ++ [fm.1], fm.2)) ++ fileEntriesNI exts rest := by
      simp [fileEntriesNI]
    have hmkf : (runMkdirs e.relRoot e.dirNames st).fs.files = st.fs.files :=
      (runMkdirs_state e.relRoot e.dirNames st).2
    have hstep := runFiles_all_identical exts failEnv total e.relRoot e.files
      (runMkdirs e.relRoot e.dirNames st)
      (by
        intro fm hm hig
        have : (e.relRoot ++ [fm.1], fm.2) ∈ fileEntriesNI exts (e :: rest) := by
          rw [hsplitFE]
          refine List.mem_append.mpr (Or.inl (List.mem_map.mpr ⟨fm, ?_, rfl⟩))
          exact List.mem_filter.mpr ⟨hm, by simp [hig]⟩
        have h := hid _ this
        simpa [DstFS.lookup, hmkf] using h)
    have hPOf : (processOne exts failEnv total e st).fs.files = st.fs.files := by
      unfold processOne
      rw [hstep.1, hmkf]
    obtain ⟨h1, h2, h3⟩ := ih (processOne exts failEnv total e st)
      (by
        intro pm hpm
        have : pm ∈ fileEntriesNI exts (e :: rest) := by
          rw [hsplitFE]
          exact List.mem_append.mpr (Or.inr hpm)
        have h := hid _ this
        simpa [DstFS.lookup, hPOf] using h)
    refine ⟨h1.trans hPOf, ?_, ?_⟩
    · rw [h2]
      unfold processOne
      rw [hstep.2.1, runMkdirs_trace, copiedPathsOf_append,
        (silent_mkdir_map e.relRoot e.dirNames).2.1, List.append_nil]
    · rw [h3]
      unfold processOne
      rw [hstep.2.2, runMkdirs_trace, errorPathsOf_append,
        (silent_mkdir_map e.relRoot e.dirNames).2.2.1, List.append_nil]

/-- Claim C5: against a source and destination unchanged since an
error-free first run (the copy preserving size and modification time),
the second run copies zero files and records zero errors: every
non-ignored file is classified identical the second time round. The
well-formedness hypothesis says distinct source files have distinct
destination paths, as on a real filesystem. -/
theorem C5_idempotence :
    ∀ (exts : List String) (fe₁ fe₂ : List String → Bool) (src : SrcDir) (fs0 : DstFS),
      (filePathsW (walkDir [] src)).Nodup →
      errorPathsOf (copy_recursively exts fe₁ src fs0).trace = [] →
      copiedPathsOf (copy_recursively exts fe₂ src
        (copy_recursively exts fe₁ src fs0).fs).trace = [] ∧
      errorPathsOf (copy_recursively exts fe₂ src
        (copy_recursively exts fe₁ src fs0).fs).trace = [] := by
  intro exts fe₁ fe₂ src fs0 hnd herr
  have hest := runWalk_establishes exts fe₁ (count_total_files src) (walkDir [] src)
    ⟨fs0, 0, []⟩ (by rw [copy_recursively] at herr; rw [herr]; rfl) hnd
  have h2 := runWalk_all_identical exts fe₂ (count_total_files src) (walkDir [] src)
    ⟨(copy_recursively exts fe₁ src fs0).fs, 0, []⟩
    (fun pm hpm => hest pm hpm)
  exact ⟨h2.2.1, h2.2.2⟩

/-- Witness for C5: a one-file source freshly copied into an empty
destination yields zero copies and zero errors on the second run. -/
theorem C5_idempotence_witness :
    copiedPathsOf (copy_recursively [] (fun _ => false)
      (SrcDir.node true [("a.txt", ⟨10, 7⟩)] .nil)
      (copy_recursively [] (fun _ => false)
        (SrcDir.node true [("a.txt", ⟨10, 7⟩)] .nil) ⟨[[]], []⟩).fs).trace = [] ∧
    errorPathsOf (copy_recursively [] (fun _ => false)
      (SrcDir.node true [("a.txt", ⟨10, 7⟩)] .nil)
      (copy_recursively [] (fun _ => false)
        (SrcDir.node true [("a.txt", ⟨10, 7⟩)] .nil) ⟨[[]], []⟩).fs).trace = [] :=
  C5_idempotence [] (fun _ => false) (fun _ => false)
    (SrcDir.node true [("a.txt", ⟨10, 7⟩)] .nil) ⟨[[]], []⟩ (by decide) (by decide)
